import Mathlib

/-!
Verification of the color-name-api matching engine, cache layer and serving
layer against its specification.

The nearest-neighbor engine (vantage-point tree, unique assignment, closest
match cache usage, lazy single-flight tree registry) is modelled from the
specification, since only its callers ship in this snapshot of the sources.
The cache service, the `/v1/` route handler and the socket broadcast are
embedded directly from `src/services/cacheService.ts`, the Hono server file
and `src/services/socketService.ts`.
-/

/-- A search candidate: original list index paired with its metric distance
to the query. Mirrors the `SearchResult` record of the spec. -/
structure Cand where
  idx : Nat
  d : Nat
deriving DecidableEq, Repr

/-- Non-strict candidate order: by distance, ties by ascending original index. -/
def candLe (a b : Cand) : Prop :=
  a.d < b.d ∨ (a.d = b.d ∧ a.idx ≤ b.idx)

/-- Strict candidate order: the spec's tie-break rule, smaller distance first
and at equal distance the lower original list index wins. -/
def candLt (a b : Cand) : Prop :=
  a.d < b.d ∨ (a.d = b.d ∧ a.idx < b.idx)

instance (a b : Cand) : Decidable (candLe a b) := by
  unfold candLe; infer_instance

instance (a b : Cand) : Decidable (candLt a b) := by
  unfold candLt; infer_instance

theorem candLe_refl (a : Cand) : candLe a a := by
  unfold candLe; omega

theorem candLt_iff_not_candLe {a b : Cand} : candLt a b ↔ ¬ candLe b a := by
  unfold candLt candLe; omega

theorem candLe_of_candLt {a b : Cand} (h : candLt a b) : candLe a b := by
  unfold candLt at h; unfold candLe; omega

theorem candLe_trans {a b c : Cand} (h₁ : candLe a b) (h₂ : candLe b c) :
    candLe a c := by
  unfold candLe at *; omega

theorem candLe_antisymm {a b : Cand} (h₁ : candLe a b) (h₂ : candLe b a) :
    a = b := by
  unfold candLe at *
  cases a with
  | mk ai ad =>
    cases b with
    | mk bi bd => simp_all; omega

theorem candLe_of_d_lt {a b : Cand} (h : a.d < b.d) : candLe a b := by
  unfold candLe; omega

/-- Offer a candidate against the current best-so-far: the incumbent is kept
unless the new candidate is strictly better under the tie-break order. -/
def oMin (best : Option Cand) (c : Cand) : Option Cand :=
  match best with
  | none => some c
  | some b => if candLt c b then some c else some b

/-- Offer a candidate only when its index passes the availability filter
(predicate pushed into the search, used by unique mode). -/
def offerIf (avail : Nat → Bool) (best : Option Cand) (c : Cand) : Option Cand :=
  if avail c.idx then oMin best c else best

theorem oMin_isSome (best : Option Cand) (c : Cand) : ∃ m, oMin best c = some m := by
  unfold oMin
  match best with
  | none => exact ⟨c, rfl⟩
  | some b =>
    by_cases h : candLt c b
    · exact ⟨c, by simp [h]⟩
    · exact ⟨b, by simp [h]⟩

theorem oMin_le_cand {best : Option Cand} {c m : Cand}
    (h : oMin best c = some m) : candLe m c := by
  unfold oMin at h
  match best with
  | none => cases h; exact candLe_refl _
  | some b =>
    by_cases hlt : candLt c b
    · simp [hlt] at h; subst h; exact candLe_refl _
    · simp [hlt] at h; subst h
      by_contra hba
      exact hlt (candLt_iff_not_candLe.mpr hba)

theorem oMin_le_best {b : Cand} {c m : Cand}
    (h : oMin (some b) c = some m) : candLe m b := by
  unfold oMin at h
  by_cases hlt : candLt c b
  · simp [hlt] at h; subst h; exact candLe_of_candLt hlt
  · simp [hlt] at h; subst h; exact candLe_refl _

theorem oMin_cases {best : Option Cand} {c m : Cand}
    (h : oMin best c = some m) : m = c ∨ best = some m := by
  unfold oMin at h
  match best with
  | none => cases h; exact Or.inl rfl
  | some b =>
    by_cases hlt : candLt c b
    · simp [hlt] at h; exact Or.inl h.symm
    · simp [hlt] at h; exact Or.inr (by rw [h])

/-- One step of the brute-force scan: offer the point, computing its distance
to the query. -/
def scanStep (dist : α → α → Nat) (q : α) (avail : Nat → Bool)
    (best : Option Cand) (x : Nat × α) : Option Cand :=
  offerIf avail best ⟨x.1, dist q x.2⟩

/-- Brute-force O(N) scan over a list of indexed points: fold every point
through the best-so-far candidate, honoring the availability filter. -/
def scanBest (dist : α → α → Nat) (q : α) (avail : Nat → Bool)
    (pts : List (Nat × α)) (best : Option Cand) : Option Cand :=
  pts.foldl (scanStep dist q avail) best

theorem scanBest_nil (dist : α → α → Nat) (q : α) (avail : Nat → Bool)
    (best : Option Cand) : scanBest dist q avail [] best = best := rfl

theorem scanBest_cons (dist : α → α → Nat) (q : α) (avail : Nat → Bool)
    (x : Nat × α) (pts : List (Nat × α)) (best : Option Cand) :
    scanBest dist q avail (x :: pts) best =
      scanBest dist q avail pts (scanStep dist q avail best x) := rfl

theorem scanBest_some_stable (dist : α → α → Nat) (q : α) (avail : Nat → Bool)
    (pts : List (Nat × α)) (b : Cand) :
    ∃ c, scanBest dist q avail pts (some b) = some c := by
  induction pts generalizing b with
  | nil => exact ⟨b, rfl⟩
  | cons x rest ih =>
    rw [scanBest_cons]
    unfold scanStep offerIf
    by_cases h : avail x.1
    · simp only [h, if_true]
      obtain ⟨m, hm⟩ := oMin_isSome (some b) ⟨x.1, dist q x.2⟩
      rw [hm]; exact ih m
    · rw [if_neg h]
      exact ih b

theorem scanBest_skip (dist : α → α → Nat) (q : α) (avail : Nat → Bool)
    (pts : List (Nat × α)) (best : Option Cand)
    (h : ∀ x ∈ pts, avail x.1 = false) :
    scanBest dist q avail pts best = best := by
  induction pts generalizing best with
  | nil => rfl
  | cons x rest ih =>
    rw [scanBest_cons]
    unfold scanStep offerIf
    have hx : avail x.1 = false := h x (by simp)
    rw [if_neg (by simp [hx])]
    exact ih best fun y hy => h y (by simp [hy])

theorem scanBest_none (dist : α → α → Nat) (q : α) (avail : Nat → Bool)
    (pts : List (Nat × α)) (best : Option Cand)
    (h : scanBest dist q avail pts best = none) :
    best = none ∧ ∀ x ∈ pts, avail x.1 = false := by
  induction pts generalizing best with
  | nil => exact ⟨h, by simp⟩
  | cons x rest ih =>
    rw [scanBest_cons] at h
    unfold scanStep offerIf at h
    by_cases hx : avail x.1
    · simp only [hx, if_true] at h
      obtain ⟨m, hm⟩ := oMin_isSome best ⟨x.1, dist q x.2⟩
      rw [hm] at h
      obtain ⟨c, hc⟩ := scanBest_some_stable dist q avail rest m
      rw [hc] at h; cases h
    · rw [if_neg hx] at h
      obtain ⟨hb, hr⟩ := ih best h
      refine ⟨hb, fun y hy => ?_⟩
      rcases List.mem_cons.mp hy with rfl | hy'
      · simpa using hx
      · exact hr y hy'

theorem scanBest_mem (dist : α → α → Nat) (q : α) (avail : Nat → Bool)
    (pts : List (Nat × α)) (best : Option Cand) (c : Cand)
    (h : scanBest dist q avail pts best = some c) :
    best = some c ∨ ∃ x ∈ pts, avail x.1 = true ∧ c = ⟨x.1, dist q x.2⟩ := by
  induction pts generalizing best with
  | nil => exact Or.inl h
  | cons x rest ih =>
    rw [scanBest_cons] at h
    unfold scanStep offerIf at h
    by_cases hx : avail x.1
    · simp only [hx, if_true] at h
      obtain ⟨m, hm⟩ := oMin_isSome best ⟨x.1, dist q x.2⟩
      rw [hm] at h
      rcases ih _ h with hbm | ⟨y, hy, hay, hcy⟩
      · cases hbm
        rcases oMin_cases hm with rfl | hbest
        · exact Or.inr ⟨x, by simp, hx, rfl⟩
        · exact Or.inl hbest
      · exact Or.inr ⟨y, by simp [hy], hay, hcy⟩
    · rw [if_neg hx] at h
      rcases ih _ h with hb | ⟨y, hy, hay, hcy⟩
      · exact Or.inl hb
      · exact Or.inr ⟨y, by simp [hy], hay, hcy⟩

theorem scanBest_le_best (dist : α → α → Nat) (q : α) (avail : Nat → Bool)
    (pts : List (Nat × α)) (b : Cand) (c : Cand)
    (h : scanBest dist q avail pts (some b) = some c) : candLe c b := by
  induction pts generalizing b with
  | nil => cases h; exact candLe_refl _
  | cons x rest ih =>
    rw [scanBest_cons] at h
    unfold scanStep offerIf at h
    by_cases hx : avail x.1
    · simp only [hx, if_true] at h
      obtain ⟨m, hm⟩ := oMin_isSome (some b) ⟨x.1, dist q x.2⟩
      rw [hm] at h
      exact candLe_trans (ih m h) (oMin_le_best hm)
    · rw [if_neg hx] at h
      exact ih b h

theorem scanBest_lower_bound (dist : α → α → Nat) (q : α) (avail : Nat → Bool)
    (pts : List (Nat × α)) (best : Option Cand) (c : Cand)
    (h : scanBest dist q avail pts best = some c) :
    ∀ x ∈ pts, avail x.1 = true → candLe c ⟨x.1, dist q x.2⟩ := by
  induction pts generalizing best with
  | nil => simp
  | cons x rest ih =>
    rw [scanBest_cons] at h
    intro y hy hay
    rcases List.mem_cons.mp hy with rfl | hy'
    · unfold scanStep offerIf at h
      simp only [hay, if_true] at h
      obtain ⟨m, hm⟩ := oMin_isSome best ⟨y.1, dist q y.2⟩
      rw [hm] at h
      exact candLe_trans (scanBest_le_best dist q avail rest m c h) (oMin_le_cand hm)
    · exact ih _ h y hy' hay

/-- Modelled from the spec: the `VPTreeNode` data model of §3 — an internal
node holds a pivot, its median-distance threshold μ and the inner/outer
subtrees; a leaf holds the remaining points as a flat list. The engine
sources (`src/findColors.js` / the VP-tree module) are not part of this
snapshot. -/
inductive VPTree (α : Type u) where
  | leaf (pts : List (Nat × α))
  | node (pivot : Nat × α) (mu : Nat) (inner outer : VPTree α)

/-- All indexed points stored in a tree, pivots included. -/
def VPTree.toList : VPTree α → List (Nat × α)
  | .leaf pts => pts
  | .node p _ inner outer => p :: (inner.toList ++ outer.toList)

/-- The leaf-size threshold below which recursion stops (spec §4.1: "Stop
recursion below a small leaf-size threshold"). -/
def leafCap : Nat := 2

/-- Insert into a sorted list of naturals, keeping it sorted. -/
def insertSorted (n : Nat) : List Nat → List Nat
  | [] => [n]
  | m :: rest => if n ≤ m then n :: m :: rest else m :: insertSorted n rest

/-- Insertion sort on naturals, used to take the median distance. -/
def sortNats (l : List Nat) : List Nat :=
  l.foldr insertSorted []

/-- The median of a list of distances (spec §4.1: "compute the median
distance μ"). -/
def medianNat (ds : List Nat) : Nat :=
  (sortNats ds).getD (ds.length / 2) 0

/-- Modelled from the spec (§4.1 Build): pick the first remaining point as
pivot, split the rest at the median distance μ into inner (≤ μ) and outer
(> μ), and recurse; lists below the leaf threshold become flat leaves. The
`fuel` argument bounds the recursion depth purely to make the recursion
structural; `buildVP` supplies enough fuel for it never to run out. -/
def buildVPFuel (dist : α → α → Nat) : Nat → List (Nat × α) → VPTree α
  | 0, pts => .leaf pts
  | _ + 1, [] => .leaf []
  | fuel + 1, p :: rest =>
    if rest.length < leafCap then .leaf (p :: rest)
    else
      let mu := medianNat (rest.map fun x => dist p.2 x.2)
      let innerPts := rest.filter fun x => dist p.2 x.2 ≤ mu
      let outerPts := rest.filter fun x => ¬ (dist p.2 x.2 ≤ mu)
      .node p mu (buildVPFuel dist fuel innerPts) (buildVPFuel dist fuel outerPts)

/-- Build the VP-tree of an indexed point list. -/
def buildVP (dist : α → α → Nat) (pts : List (Nat × α)) : VPTree α :=
  buildVPFuel dist pts.length pts

/-- Structural invariant of a well-formed VP-tree (spec §4.1): every point
in the inner subtree is within μ of the pivot, every point in the outer
subtree is strictly beyond μ. -/
inductive VPWF (dist : α → α → Nat) : VPTree α → Prop
  | leaf (pts : List (Nat × α)) : VPWF dist (.leaf pts)
  | node (p : Nat × α) (mu : Nat) (inner outer : VPTree α)
      (hin : ∀ x ∈ inner.toList, dist p.2 x.2 ≤ mu)
      (hout : ∀ x ∈ outer.toList, ¬ dist p.2 x.2 ≤ mu)
      (wfin : VPWF dist inner) (wfout : VPWF dist outer) :
      VPWF dist (.node p mu inner outer)

theorem buildVPFuel_toList_perm (dist : α → α → Nat) :
    ∀ (fuel : Nat) (pts : List (Nat × α)), pts.length ≤ fuel →
      (buildVPFuel dist fuel pts).toList.Perm pts := by
  intro fuel
  induction fuel with
  | zero =>
    intro pts hlen
    have : pts = [] := List.length_eq_zero.mp (Nat.le_zero.mp hlen)
    subst this
    exact List.Perm.refl _
  | succ n ih =>
    intro pts hlen
    match pts with
    | [] => exact List.Perm.refl _
    | p :: rest =>
      show (buildVPFuel dist (n + 1) (p :: rest)).toList.Perm (p :: rest)
      rw [buildVPFuel]
      by_cases hsmall : rest.length < leafCap
      · rw [if_pos hsmall]; exact List.Perm.refl _
      · rw [if_neg hsmall]
        simp only [VPTree.toList]
        have hrest : rest.length ≤ n := by simpa using hlen
        have hinlen : (rest.filter fun x =>
            dist p.2 x.2 ≤ medianNat (rest.map fun x => dist p.2 x.2)).length ≤ n :=
          le_trans (List.length_filter_le _ _) hrest
        have houtlen : (rest.filter fun x =>
            ¬ (dist p.2 x.2 ≤ medianNat (rest.map fun x => dist p.2 x.2))).length ≤ n :=
          le_trans (List.length_filter_le _ _) hrest
        refine List.Perm.cons p ?_
        refine List.Perm.trans (List.Perm.append (ih _ hinlen) (ih _ houtlen)) ?_
        have := List.filter_append_perm
          (fun x => dist p.2 x.2 ≤ medianNat (rest.map fun x => dist p.2 x.2)) rest
        refine List.Perm.trans ?_ this
        refine List.Perm.append (List.Perm.refl _) ?_
        apply List.Perm.of_eq
        congr 1
        funext x
        by_cases hd : dist p.2 x.2 ≤ medianNat (rest.map fun x => dist p.2 x.2)
        · simp [hd, Nat.not_lt.mpr hd]
        · simp [hd, Nat.not_le.mp hd]

theorem buildVP_toList_perm (dist : α → α → Nat) (pts : List (Nat × α)) :
    (buildVP dist pts).toList.Perm pts :=
  buildVPFuel_toList_perm dist pts.length pts (le_refl _)

theorem buildVPFuel_wf (dist : α → α → Nat) :
    ∀ (fuel : Nat) (pts : List (Nat × α)), pts.length ≤ fuel →
      VPWF dist (buildVPFuel dist fuel pts) := by
  intro fuel
  induction fuel with
  | zero => intro pts _; exact VPWF.leaf pts
  | succ n ih =>
    intro pts hlen
    match pts with
    | [] => exact VPWF.leaf []
    | p :: rest =>
      rw [buildVPFuel]
      by_cases hsmall : rest.length < leafCap
      · rw [if_pos hsmall]; exact VPWF.leaf _
      · rw [if_neg hsmall]
        have hrest : rest.length ≤ n := by simpa using hlen
        have hinlen : (rest.filter fun x =>
            dist p.2 x.2 ≤ medianNat (rest.map fun x => dist p.2 x.2)).length ≤ n :=
          le_trans (List.length_filter_le _ _) hrest
        have houtlen : (rest.filter fun x =>
            ¬ (dist p.2 x.2 ≤ medianNat (rest.map fun x => dist p.2 x.2))).length ≤ n :=
          le_trans (List.length_filter_le _ _) hrest
        refine VPWF.node p _ _ _ ?_ ?_ (ih _ hinlen) (ih _ houtlen)
        · intro x hx
          have hx' := (buildVPFuel_toList_perm dist n _ hinlen).mem_iff.mp hx
          have := List.of_mem_filter hx'
          simpa using this
        · intro x hx
          have hx' := (buildVPFuel_toList_perm dist n _ houtlen).mem_iff.mp hx
          have := List.of_mem_filter hx'
          simpa using this

theorem buildVP_wf (dist : α → α → Nat) (pts : List (Nat × α)) :
    VPWF dist (buildVP dist pts) :=
  buildVPFuel_wf dist pts.length pts (le_refl _)

/-- Spec §4.1: descend the inner subtree when d − μ ≤ τ, where τ is the
current worst-accepted distance (infinite while no candidate is held). -/
def descendInner (d mu : Nat) : Option Cand → Bool
  | none => true
  | some b => decide (d ≤ mu + b.d)

/-- Spec §4.1: descend the outer subtree when μ − d ≤ τ. -/
def descendOuter (d mu : Nat) : Option Cand → Bool
  | none => true
  | some b => decide (mu ≤ d + b.d)

/-- Modelled from the spec (§4.1 Search): pruned exact nearest-neighbor
descent. At each node the pivot is offered as a candidate (tightening τ),
then each subtree is descended only when the distance bound cannot rule it
out. The availability predicate is pushed into the descent, as §4.2
requires for unique mode. -/
def searchVP (dist : α → α → Nat) (q : α) (avail : Nat → Bool) :
    VPTree α → Option Cand → Option Cand
  | .leaf pts, best => scanBest dist q avail pts best
  | .node p mu inner outer, best =>
    let d := dist q p.2
    let b1 := offerIf avail best ⟨p.1, d⟩
    let b2 := if descendInner d mu b1 then searchVP dist q avail inner b1 else b1
    if descendOuter d mu b2 then searchVP dist q avail outer b2 else b2

theorem searchVP_leaf (dist : α → α → Nat) (q : α) (avail : Nat → Bool)
    (pts : List (Nat × α)) (best : Option Cand) :
    searchVP dist q avail (.leaf pts) best = scanBest dist q avail pts best := rfl

theorem searchVP_node (dist : α → α → Nat) (q : α) (avail : Nat → Bool)
    (p : Nat × α) (mu : Nat) (inner outer : VPTree α) (best : Option Cand) :
    searchVP dist q avail (.node p mu inner outer) best =
      (let d := dist q p.2
       let b1 := offerIf avail best ⟨p.1, d⟩
       let b2 := if descendInner d mu b1 then searchVP dist q avail inner b1 else b1
       if descendOuter d mu b2 then searchVP dist q avail outer b2 else b2) := rfl

theorem descendInner_eq_false {d mu : Nat} {b : Option Cand}
    (h : descendInner d mu b = false) : ∃ bc, b = some bc ∧ mu + bc.d < d := by
  match b with
  | none => simp [descendInner] at h
  | some bc =>
    refine ⟨bc, rfl, ?_⟩
    simp [descendInner] at h
    omega

theorem descendOuter_eq_false {d mu : Nat} {b : Option Cand}
    (h : descendOuter d mu b = false) : ∃ bc, b = some bc ∧ d + bc.d < mu := by
  match b with
  | none => simp [descendOuter] at h
  | some bc =>
    refine ⟨bc, rfl, ?_⟩
    simp [descendOuter] at h
    omega

theorem offerIf_skip {avail : Nat → Bool} {c : Cand} (best : Option Cand)
    (h : avail c.idx = false) : offerIf avail best c = best := by
  unfold offerIf
  rw [if_neg (by simp [h])]

theorem offerIf_some_stable (avail : Nat → Bool) (b : Cand) (c : Cand) :
    ∃ m, offerIf avail (some b) c = some m ∧ candLe m b := by
  unfold offerIf
  by_cases h : avail c.idx
  · rw [if_pos h]
    obtain ⟨m, hm⟩ := oMin_isSome (some b) c
    exact ⟨m, hm, oMin_le_best hm⟩
  · rw [if_neg h]
    exact ⟨b, rfl, candLe_refl b⟩

theorem offerIf_none_elim {avail : Nat → Bool} {best : Option Cand} {c : Cand}
    (h : offerIf avail best c = none) : best = none ∧ avail c.idx = false := by
  unfold offerIf at h
  by_cases ha : avail c.idx
  · rw [if_pos ha] at h
    obtain ⟨m, hm⟩ := oMin_isSome best c
    rw [hm] at h; cases h
  · rw [if_neg ha] at h
    exact ⟨h, by simpa using ha⟩

theorem offerIf_mem {avail : Nat → Bool} {best : Option Cand} {c m : Cand}
    (h : offerIf avail best c = some m) :
    best = some m ∨ (avail c.idx = true ∧ m = c) := by
  unfold offerIf at h
  by_cases ha : avail c.idx
  · rw [if_pos ha] at h
    rcases oMin_cases h with rfl | hb
    · exact Or.inr ⟨ha, rfl⟩
    · exact Or.inl hb
  · rw [if_neg ha] at h
    exact Or.inl h

theorem offerIf_le_cand {avail : Nat → Bool} {best : Option Cand} {c m : Cand}
    (ha : avail c.idx = true) (h : offerIf avail best c = some m) : candLe m c := by
  unfold offerIf at h
  rw [if_pos ha] at h
  exact oMin_le_cand h

theorem candLe_d_le {a b : Cand} (h : candLe a b) : a.d ≤ b.d := by
  unfold candLe at h; omega

theorem searchVP_node_eq (dist : α → α → Nat) (q : α) (avail : Nat → Bool)
    (p : Nat × α) (mu : Nat) (inner outer : VPTree α) (best : Option Cand) :
    searchVP dist q avail (.node p mu inner outer) best =
      (if descendOuter (dist q p.2) mu
          (if descendInner (dist q p.2) mu (offerIf avail best ⟨p.1, dist q p.2⟩)
            then searchVP dist q avail inner (offerIf avail best ⟨p.1, dist q p.2⟩)
            else offerIf avail best ⟨p.1, dist q p.2⟩)
        then searchVP dist q avail outer
          (if descendInner (dist q p.2) mu (offerIf avail best ⟨p.1, dist q p.2⟩)
            then searchVP dist q avail inner (offerIf avail best ⟨p.1, dist q p.2⟩)
            else offerIf avail best ⟨p.1, dist q p.2⟩)
        else
          (if descendInner (dist q p.2) mu (offerIf avail best ⟨p.1, dist q p.2⟩)
            then searchVP dist q avail inner (offerIf avail best ⟨p.1, dist q p.2⟩)
            else offerIf avail best ⟨p.1, dist q p.2⟩)) := rfl

theorem offerIf_isSome_of_avail (avail : Nat → Bool) (c : Cand) (best : Option Cand)
    (ha : avail c.idx = true) : ∃ m, offerIf avail best c = some m ∧ candLe m c := by
  unfold offerIf
  rw [if_pos ha]
  obtain ⟨m, hm⟩ := oMin_isSome best c
  exact ⟨m, hm, oMin_le_cand hm⟩

theorem searchVP_some_stable (dist : α → α → Nat) (q : α) (avail : Nat → Bool) :
    ∀ (t : VPTree α) (b : Cand), ∃ c, searchVP dist q avail t (some b) = some c := by
  intro t
  induction t with
  | leaf pts => intro b; exact scanBest_some_stable dist q avail pts b
  | node p mu inner outer ihin ihout =>
    intro b
    rw [searchVP_node_eq]
    obtain ⟨m1, hm1, _⟩ := offerIf_some_stable avail b ⟨p.1, dist q p.2⟩
    rw [hm1]
    by_cases hdi : descendInner (dist q p.2) mu (some m1) = true
    · rw [if_pos hdi]
      obtain ⟨m2, hm2⟩ := ihin m1
      rw [hm2]
      by_cases hdo : descendOuter (dist q p.2) mu (some m2) = true
      · rw [if_pos hdo]; exact ihout m2
      · rw [if_neg hdo]; exact ⟨m2, rfl⟩
    · rw [if_neg hdi]
      by_cases hdo : descendOuter (dist q p.2) mu (some m1) = true
      · rw [if_pos hdo]; exact ihout m1
      · rw [if_neg hdo]; exact ⟨m1, rfl⟩

theorem searchVP_skip (dist : α → α → Nat) (q : α) (avail : Nat → Bool) :
    ∀ (t : VPTree α) (best : Option Cand),
      (∀ x ∈ t.toList, avail x.1 = false) →
      searchVP dist q avail t best = best := by
  intro t
  induction t with
  | leaf pts => intro best h; exact scanBest_skip dist q avail pts best h
  | node p mu inner outer ihin ihout =>
    intro best h
    have hp : avail p.1 = false := h p (by simp [VPTree.toList])
    have hinner : ∀ x ∈ inner.toList, avail x.1 = false := fun x hx =>
      h x (by simp [VPTree.toList, hx])
    have houter : ∀ x ∈ outer.toList, avail x.1 = false := fun x hx =>
      h x (by simp [VPTree.toList, hx])
    rw [searchVP_node_eq, offerIf_skip best hp, ihin best hinner, ite_self,
      ihout best houter, ite_self]

theorem searchVP_none (dist : α → α → Nat) (q : α) (avail : Nat → Bool) :
    ∀ (t : VPTree α) (best : Option Cand),
      searchVP dist q avail t best = none →
      best = none ∧ ∀ x ∈ t.toList, avail x.1 = false := by
  intro t
  induction t with
  | leaf pts => intro best h; exact scanBest_none dist q avail pts best h
  | node p mu inner outer ihin ihout =>
    intro best h
    rw [searchVP_node_eq] at h
    generalize hb1 : offerIf avail best ⟨p.1, dist q p.2⟩ = b1 at h
    generalize hb2def : (if descendInner (dist q p.2) mu b1
      then searchVP dist q avail inner b1 else b1) = b2 at h
    have hb2 : b2 = none ∧ ∀ x ∈ outer.toList, avail x.1 = false := by
      by_cases hdo : descendOuter (dist q p.2) mu b2 = true
      · rw [if_pos hdo] at h
        exact ihout b2 h
      · rw [if_neg hdo] at h
        subst h
        simp [descendOuter] at hdo
    obtain ⟨hb2n, houter⟩ := hb2
    subst hb2n
    have hb1n : b1 = none ∧ ∀ x ∈ inner.toList, avail x.1 = false := by
      by_cases hdi : descendInner (dist q p.2) mu b1 = true
      · rw [if_pos hdi] at hb2def
        exact ihin b1 hb2def
      · rw [if_neg hdi] at hb2def
        subst hb2def
        simp [descendInner] at hdi
    obtain ⟨hb1nn, hinner⟩ := hb1n
    subst hb1nn
    obtain ⟨hbest, hpav⟩ := offerIf_none_elim hb1
    refine ⟨hbest, fun x hx => ?_⟩
    simp only [VPTree.toList, List.mem_cons, List.mem_append] at hx
    rcases hx with rfl | hxin | hxout
    · exact hpav
    · exact hinner x hxin
    · exact houter x hxout

theorem searchVP_mem (dist : α → α → Nat) (q : α) (avail : Nat → Bool) :
    ∀ (t : VPTree α) (best : Option Cand) (c : Cand),
      searchVP dist q avail t best = some c →
      best = some c ∨ ∃ x ∈ t.toList, avail x.1 = true ∧ c = ⟨x.1, dist q x.2⟩ := by
  intro t
  induction t with
  | leaf pts => intro best c h; exact scanBest_mem dist q avail pts best c h
  | node p mu inner outer ihin ihout =>
    intro best c h
    rw [searchVP_node_eq] at h
    generalize hb1 : offerIf avail best ⟨p.1, dist q p.2⟩ = b1 at h
    generalize hb2def : (if descendInner (dist q p.2) mu b1
      then searchVP dist q avail inner b1 else b1) = b2 at h
    have hb2c : b2 = some c ∨ ∃ x ∈ outer.toList, avail x.1 = true ∧
        c = ⟨x.1, dist q x.2⟩ := by
      by_cases hdo : descendOuter (dist q p.2) mu b2 = true
      · rw [if_pos hdo] at h
        exact ihout b2 c h
      · rw [if_neg hdo] at h
        exact Or.inl h
    rcases hb2c with hb2c | ⟨x, hx, hax, hcx⟩
    · subst hb2c
      have hb1c : b1 = some c ∨ ∃ x ∈ inner.toList, avail x.1 = true ∧
          c = ⟨x.1, dist q x.2⟩ := by
        by_cases hdi : descendInner (dist q p.2) mu b1 = true
        · rw [if_pos hdi] at hb2def
          exact ihin b1 c hb2def
        · rw [if_neg hdi] at hb2def
          exact Or.inl hb2def
      rcases hb1c with hb1c | ⟨x, hx, hax, hcx⟩
      · subst hb1c
        rcases offerIf_mem hb1 with hbest | ⟨hap, hcp⟩
        · exact Or.inl hbest
        · exact Or.inr ⟨p, by simp [VPTree.toList], hap, by rw [hcp]⟩
      · exact Or.inr ⟨x, by simp [VPTree.toList, hx], hax, hcx⟩
    · exact Or.inr ⟨x, by simp [VPTree.toList, hx], hax, hcx⟩

theorem searchVP_le_best (dist : α → α → Nat) (q : α) (avail : Nat → Bool) :
    ∀ (t : VPTree α) (b : Cand) (c : Cand),
      searchVP dist q avail t (some b) = some c → candLe c b := by
  intro t
  induction t with
  | leaf pts => intro b c h; exact scanBest_le_best dist q avail pts b c h
  | node p mu inner outer ihin ihout =>
    intro b c h
    rw [searchVP_node_eq] at h
    obtain ⟨m1, hm1, hle1⟩ := offerIf_some_stable avail b ⟨p.1, dist q p.2⟩
    rw [hm1] at h
    have hb2 : ∃ m2, (if descendInner (dist q p.2) mu (some m1)
        then searchVP dist q avail inner (some m1) else some m1) = some m2 ∧
        candLe m2 m1 := by
      by_cases hdi : descendInner (dist q p.2) mu (some m1) = true
      · rw [if_pos hdi]
        obtain ⟨m2, hm2⟩ := searchVP_some_stable dist q avail inner m1
        exact ⟨m2, hm2, ihin m1 m2 hm2⟩
      · rw [if_neg hdi]
        exact ⟨m1, rfl, candLe_refl m1⟩
    obtain ⟨m2, hm2, hle2⟩ := hb2
    rw [hm2] at h
    have hfinal : candLe c m2 := by
      by_cases hdo : descendOuter (dist q p.2) mu (some m2) = true
      · rw [if_pos hdo] at h
        exact ihout m2 c h
      · rw [if_neg hdo] at h
        cases h
        exact candLe_refl _
    exact candLe_trans (candLe_trans hfinal hle2) hle1

theorem searchVP_lower_bound (dist : α → α → Nat) (q : α) (avail : Nat → Bool)
    (hsymm : ∀ a b, dist a b = dist b a)
    (htri : ∀ a b c, dist a c ≤ dist a b + dist b c) :
    ∀ (t : VPTree α), VPWF dist t → ∀ (best : Option Cand) (c : Cand),
      searchVP dist q avail t best = some c →
      ∀ x ∈ t.toList, avail x.1 = true → candLe c ⟨x.1, dist q x.2⟩ := by
  intro t
  induction t with
  | leaf pts =>
    intro _ best c h x hx hax
    exact scanBest_lower_bound dist q avail pts best c h x hx hax
  | node p mu inner outer ihin ihout =>
    intro hwf best c h x hx hax
    cases hwf with
    | node _ _ _ _ hin hout wfin wfout =>
      rw [searchVP_node_eq] at h
      generalize hb1 : offerIf avail best ⟨p.1, dist q p.2⟩ = b1 at h
      generalize hb2def : (if descendInner (dist q p.2) mu b1
        then searchVP dist q avail inner b1 else b1) = b2 at h
      have hfinal : ∀ m2, b2 = some m2 → candLe c m2 := by
        intro m2 hm2
        rw [hm2] at h
        by_cases hdo : descendOuter (dist q p.2) mu (some m2) = true
        · rw [if_pos hdo] at h
          exact searchVP_le_best dist q avail outer m2 c h
        · rw [if_neg hdo] at h
          cases h
          exact candLe_refl _
      simp only [VPTree.toList, List.mem_cons, List.mem_append] at hx
      rcases hx with hxp | hxin | hxout
      · -- the pivot itself is offered before any descent
        subst hxp
        obtain ⟨m1, hm1, hle1⟩ :=
          offerIf_isSome_of_avail avail ⟨x.1, dist q x.2⟩ best hax
        rw [hb1] at hm1
        subst hm1
        have hb2some : ∃ m2, b2 = some m2 ∧ candLe m2 m1 := by
          by_cases hdi : descendInner (dist q x.2) mu (some m1) = true
          · rw [← hb2def, if_pos hdi]
            obtain ⟨m2, hm2⟩ := searchVP_some_stable dist q avail inner m1
            exact ⟨m2, hm2, searchVP_le_best dist q avail inner m1 m2 hm2⟩
          · rw [← hb2def, if_neg hdi]
            exact ⟨m1, rfl, candLe_refl m1⟩
        obtain ⟨m2, hm2, hle2⟩ := hb2some
        exact candLe_trans (candLe_trans (hfinal m2 hm2) hle2) hle1
      · -- a point of the inner subtree
        by_cases hdi : descendInner (dist q p.2) mu b1 = true
        · rw [if_pos hdi] at hb2def
          match hb2v : b2 with
          | none =>
            have := (searchVP_none dist q avail inner b1 hb2def).2 x hxin
            rw [hax] at this
            cases this
          | some m2 =>
            have hm2le := ihin wfin b1 m2 hb2def x hxin hax
            exact candLe_trans (hfinal m2 rfl) hm2le
        · obtain ⟨m1, hb1m, hmu⟩ := descendInner_eq_false (by simpa using hdi)
          rw [if_neg hdi] at hb2def
          rw [hb1m] at hb2def
          have hcm1 := hfinal m1 hb2def.symm
          have hxmu : dist p.2 x.2 ≤ mu := hin x hxin
          have htr := htri q x.2 p.2
          have hsx := hsymm x.2 p.2
          have hdlt : m1.d < dist q x.2 := by omega
          exact candLe_of_d_lt (lt_of_le_of_lt (candLe_d_le hcm1) hdlt)
      · -- a point of the outer subtree
        by_cases hdo : descendOuter (dist q p.2) mu b2 = true
        · rw [if_pos hdo] at h
          exact ihout wfout b2 c h x hxout hax
        · obtain ⟨m2, hb2m, hmu⟩ := descendOuter_eq_false (by simpa using hdo)
          rw [if_neg hdo] at h
          rw [hb2m] at h
          obtain rfl : m2 = c := Option.some.inj h
          have hxmu : ¬ dist p.2 x.2 ≤ mu := hout x hxout
          have htr := htri p.2 q x.2
          have hsx := hsymm p.2 q
          have hdlt : m2.d < dist q x.2 := by omega
          exact candLe_of_d_lt hdlt

theorem searchVP_build_eq_scanBest (dist : α → α → Nat) (q : α) (avail : Nat → Bool)
    (hsymm : ∀ a b, dist a b = dist b a)
    (htri : ∀ a b c, dist a c ≤ dist a b + dist b c)
    (pts : List (Nat × α)) :
    searchVP dist q avail (buildVP dist pts) none = scanBest dist q avail pts none := by
  have hperm := buildVP_toList_perm dist pts
  have hwf := buildVP_wf dist pts
  match hs : searchVP dist q avail (buildVP dist pts) none with
  | none =>
    obtain ⟨-, hall⟩ := searchVP_none dist q avail _ none hs
    have hall' : ∀ x ∈ pts, avail x.1 = false := fun x hx =>
      hall x (hperm.mem_iff.mpr hx)
    exact (scanBest_skip dist q avail pts none hall').symm
  | some c =>
    rcases searchVP_mem dist q avail _ none c hs with hnone | ⟨x, hx, hax, hcx⟩
    · cases hnone
    have hscan : ∃ c2, scanBest dist q avail pts none = some c2 := by
      match hsc : scanBest dist q avail pts none with
      | some c2 => exact ⟨c2, rfl⟩
      | none =>
        have := (scanBest_none dist q avail pts none hsc).2 x (hperm.mem_iff.mp hx)
        rw [hax] at this
        cases this
    obtain ⟨c2, hc2⟩ := hscan
    rcases scanBest_mem dist q avail pts none c2 hc2 with h0 | ⟨y, hy, hay, hc2y⟩
    · cases h0
    have h1 : candLe c c2 := by
      have := searchVP_lower_bound dist q avail hsymm htri _ hwf none c hs y
        (hperm.mem_iff.mpr hy) hay
      rw [← hc2y] at this
      exact this
    have h2 : candLe c2 c := by
      have := scanBest_lower_bound dist q avail pts none c2 hc2 x
        (hperm.mem_iff.mp hx) hax
      rw [← hcx] at this
      exact this
    rw [hc2, candLe_antisymm h1 h2]

/-- The engine's error taxonomy (spec §7), restricted to the search errors
the claims mention. -/
inductive EngineError where
  | EmptyIndex
  | Exhaustion
deriving DecidableEq, Repr

/-- Modelled from the spec (§6): `matchOne(hex, listId) -> ⟨entry, distance⟩`
or fails `EmptyIndex`. The entry list stands for the color list registered
under `listId`; the engine source is not part of this snapshot. -/
def matchOne (dist : α → α → Nat) (entries : List α) (q : α) :
    Except EngineError Cand :=
  match searchVP dist q (fun _ => true) (buildVP dist entries.enum) none with
  | some c => .ok c
  | none => .error .EmptyIndex

/-- The brute-force O(N) scan the spec cross-checks `matchOne` against:
fold over every entry of the list. -/
def bruteForceScan (dist : α → α → Nat) (entries : List α) (q : α) : Option Cand :=
  scanBest dist q (fun _ => true) entries.enum none

/-- One entry of a batch response, mirroring the input order. -/
inductive BatchResult where
  | success (c : Cand)
  | failure (e : EngineError)
deriving DecidableEq, Repr

/-- Whether a batch entry is a successful match. -/
def isSuccess : BatchResult → Bool
  | .success _ => true
  | .failure _ => false

/-- The assigned list indices of the successful entries, in batch order. -/
def successIndices (rs : List BatchResult) : List Nat :=
  rs.filterMap fun r =>
    match r with
    | .success c => some c.idx
    | .failure _ => none

/-- Modelled from the spec (§4.2 UniqueAssignment): process queries in
received order against the availability-filtered search; on success the
assigned index is removed from the `AvailableIndexSet` immediately; once
the set is empty every remaining query fails with `Exhaustion`, while the
partial results are kept. -/
def runUnique (dist : α → α → Nat) (t : VPTree α) (avail : List Nat) :
    List α → List BatchResult
  | [] => []
  | q :: qs =>
    match searchVP dist q (fun i => avail.contains i) t none with
    | some c => .success c :: runUnique dist t (avail.erase c.idx) qs
    | none => .failure .Exhaustion :: runUnique dist t avail qs

/-- Modelled from the spec (§6): `matchBatch(hexes[], listId, uniqueMode)`,
an ordered array mirroring the input order; unique mode seeds the
`AvailableIndexSet` with all indices of the list. -/
def matchBatch (dist : α → α → Nat) (entries : List α) (qs : List α)
    (uniqueMode : Bool) : List BatchResult :=
  if uniqueMode then
    runUnique dist (buildVP dist entries.enum) (List.range entries.length) qs
  else
    qs.map fun q =>
      match searchVP dist q (fun _ => true) (buildVP dist entries.enum) none with
      | some c => .success c
      | none => .failure .EmptyIndex

theorem searchVP_avail_nil (dist : α → α → Nat) (q : α) (t : VPTree α) :
    searchVP dist q (fun i => List.contains [] i) t none = none := by
  apply searchVP_skip
  intro x _
  rfl

theorem searchVP_avail_some (dist : α → α → Nat) (q : α) (t : VPTree α)
    (avail : List Nat) (hsub : ∀ i ∈ avail, ∃ x ∈ t.toList, x.1 = i)
    (hne : avail ≠ []) :
    ∃ c, searchVP dist q (fun i => avail.contains i) t none = some c ∧
      c.idx ∈ avail := by
  match hs : searchVP dist q (fun i => avail.contains i) t none with
  | some c =>
    rcases searchVP_mem dist q _ t none c hs with h0 | ⟨x, _, hax, hcx⟩
    · cases h0
    refine ⟨c, rfl, ?_⟩
    rw [hcx]
    simpa using hax
  | none =>
    obtain ⟨i, hi⟩ := List.exists_mem_of_ne_nil avail hne
    obtain ⟨x, hx, hxi⟩ := hsub i hi
    have := (searchVP_none dist q _ t none hs).2 x hx
    rw [hxi] at this
    simp [hi] at this

theorem runUnique_cons_some (dist : α → α → Nat) (t : VPTree α)
    (avail : List Nat) (q : α) (qs : List α) (c : Cand)
    (h : searchVP dist q (fun i => avail.contains i) t none = some c) :
    runUnique dist t avail (q :: qs) =
      .success c :: runUnique dist t (avail.erase c.idx) qs := by
  rw [runUnique, h]

theorem runUnique_cons_none (dist : α → α → Nat) (t : VPTree α)
    (avail : List Nat) (q : α) (qs : List α)
    (h : searchVP dist q (fun i => avail.contains i) t none = none) :
    runUnique dist t avail (q :: qs) =
      .failure .Exhaustion :: runUnique dist t avail qs := by
  rw [runUnique, h]

theorem runUnique_spec (dist : α → α → Nat) (t : VPTree α) :
    ∀ (qs : List α) (avail : List Nat), avail.Nodup →
      (∀ i ∈ avail, ∃ x ∈ t.toList, x.1 = i) →
      (runUnique dist t avail qs).length = qs.length ∧
      (runUnique dist t avail qs).countP isSuccess = min qs.length avail.length ∧
      (successIndices (runUnique dist t avail qs)).Nodup ∧
      (∀ j ∈ successIndices (runUnique dist t avail qs), j ∈ avail) ∧
      (∀ k, k < min qs.length avail.length →
        ∃ c, (runUnique dist t avail qs)[k]? = some (.success c)) ∧
      (∀ k, avail.length ≤ k → k < qs.length →
        (runUnique dist t avail qs)[k]? = some (.failure .Exhaustion)) := by
  intro qs
  induction qs with
  | nil =>
    intro avail _ _
    refine ⟨rfl, by simp [runUnique], by simp [runUnique, successIndices],
      ?_, ?_, ?_⟩
    · intro j hj; simp [runUnique, successIndices] at hj
    · intro k hk; simp at hk
    · intro k _ hk; simp at hk
  | cons q qs ih =>
    intro avail hnd hsub
    match havail : avail with
    | [] =>
      rw [runUnique_cons_none dist t [] q qs (searchVP_avail_nil dist q t)]
      obtain ⟨ihlen, ihcnt, ihnd, ihmem, ihsucc, ihfail⟩ :=
        ih [] List.nodup_nil (by intro i hi; cases hi)
      refine ⟨by simpa using ihlen, ?_, ?_, ?_, ?_, ?_⟩
      · rw [List.countP_cons, ihcnt]
        simp [isSuccess]
      · simpa [successIndices] using ihnd
      · intro j hj
        simp only [successIndices, List.filterMap_cons] at hj
        exact ihmem j hj
      · intro k hk; simp at hk
      · intro k _ hk
        match k with
        | 0 => simp
        | k + 1 =>
          simp only [List.getElem?_cons_succ]
          exact ihfail k (Nat.zero_le k) (by simpa using hk)
    | a :: rest =>
      obtain ⟨c, hc, hcmem⟩ := searchVP_avail_some dist q t (a :: rest) hsub
        (by simp)
      rw [runUnique_cons_some dist t (a :: rest) q qs c hc]
      have hndE : ((a :: rest).erase c.idx).Nodup := hnd.erase c.idx
      have hsubE : ∀ i ∈ (a :: rest).erase c.idx, ∃ x ∈ t.toList, x.1 = i :=
        fun i hi => hsub i (List.mem_of_mem_erase hi)
      have hlenE : ((a :: rest).erase c.idx).length + 1 = rest.length + 1 := by
        rw [List.length_erase_of_mem hcmem]
        simp
      obtain ⟨ihlen, ihcnt, ihnd, ihmem, ihsucc, ihfail⟩ :=
        ih ((a :: rest).erase c.idx) hndE hsubE
      have hidxE : c.idx ∉ (a :: rest).erase c.idx := by
        intro hmem
        have := (List.Nodup.mem_erase_iff hnd).mp hmem
        exact this.1 rfl
      refine ⟨by simpa using ihlen, ?_, ?_, ?_, ?_, ?_⟩
      · rw [List.countP_cons, ihcnt]
        have hone : (if isSuccess (.success c) = true then 1 else 0) = 1 := rfl
        rw [hone]
        simp only [List.length_cons]
        omega
      · simp only [successIndices, List.filterMap_cons]
        exact List.nodup_cons.mpr ⟨fun hmem => hidxE (ihmem c.idx hmem), ihnd⟩
      · intro j hj
        simp only [successIndices, List.filterMap_cons] at hj
        rcases List.mem_cons.mp hj with rfl | hjr
        · exact hcmem
        · exact List.mem_of_mem_erase (ihmem j hjr)
      · intro k hk
        match k with
        | 0 => exact ⟨c, by simp⟩
        | k + 1 =>
          simp only [List.getElem?_cons_succ]
          refine ihsucc k ?_
          simp only [List.length_cons] at hk
          omega
      · intro k hk1 hk2
        match k with
        | 0 => simp at hk1
        | k + 1 =>
          simp only [List.getElem?_cons_succ]
          refine ihfail k ?_ ?_
          · simp only [List.length_cons] at hk1
            omega
          · simpa using hk2

theorem mem_enum_of_lt (entries : List α) (i : Nat) (h : i < entries.length) :
    (i, entries.get ⟨i, h⟩) ∈ entries.enum := by
  rw [List.mem_enum_iff_getElem?]
  simp [List.getElem?_eq_getElem h]

theorem of_mem_enum {entries : List α} {x : Nat × α} (h : x ∈ entries.enum) :
    ∃ hlt : x.1 < entries.length, x.2 = entries.get ⟨x.1, hlt⟩ := by
  rw [List.mem_enum_iff_getElem?] at h
  have hlt : x.1 < entries.length := by
    by_contra hge
    rw [List.getElem?_eq_none (by omega)] at h
    cases h
  refine ⟨hlt, ?_⟩
  rw [List.getElem?_eq_getElem hlt] at h
  have := Option.some.inj h
  simp [← this]

theorem matchBatch_unique_spec (dist : α → α → Nat) (entries : List α)
    (qs : List α) :
    (matchBatch dist entries qs true).length = qs.length ∧
    (matchBatch dist entries qs true).countP isSuccess =
      min qs.length entries.length ∧
    (successIndices (matchBatch dist entries qs true)).Nodup ∧
    (∀ j ∈ successIndices (matchBatch dist entries qs true),
      j < entries.length) ∧
    (∀ k, k < min qs.length entries.length →
      ∃ c, (matchBatch dist entries qs true)[k]? = some (.success c)) ∧
    (∀ k, entries.length ≤ k → k < qs.length →
      (matchBatch dist entries qs true)[k]? = some (.failure .Exhaustion)) := by
  have hsub : ∀ i ∈ List.range entries.length,
      ∃ x ∈ (buildVP dist entries.enum).toList, x.1 = i := by
    intro i hi
    have hlt : i < entries.length := List.mem_range.mp hi
    refine ⟨(i, entries.get ⟨i, hlt⟩), ?_, rfl⟩
    exact (buildVP_toList_perm dist entries.enum).mem_iff.mpr
      (mem_enum_of_lt entries i hlt)
  obtain ⟨hlen, hcnt, hnd, hmem, hsucc, hfail⟩ :=
    runUnique_spec dist (buildVP dist entries.enum) qs
      (List.range entries.length) (List.nodup_range _) hsub
  rw [List.length_range] at hcnt hsucc hfail
  unfold matchBatch
  rw [if_pos rfl]
  refine ⟨hlen, hcnt, hnd, ?_, hsucc, hfail⟩
  intro j hj
  exact List.mem_range.mp (hmem j hj)

/-- Look a key up in an LRU association list (most recently used first),
modelling the `lru-cache` store used by `src/services/cacheService.ts`. -/
def lruLookup [DecidableEq K] (l : List (K × V)) (k : K) : Option V :=
  (l.find? fun p => p.1 = k).map fun p => p.2

/-- Model of `cache.get(key)`: return the stored value unchanged and mark the entry
most recently used. -/
def lruGet [DecidableEq K] (l : List (K × V)) (k : K) : Option V × List (K × V) :=
  match lruLookup l k with
  | some v => (some v, (k, v) :: l.eraseP fun p => p.1 = k)
  | none => (none, l)

/-- Model of `cache.set(key, value)`: store at the most-recent position, evicting by
recency beyond the configured capacity (no TTL). -/
def lruSet [DecidableEq K] (cap : Nat) (l : List (K × V)) (k : K) (v : V) :
    List (K × V) :=
  ((k, v) :: l.eraseP fun p => p.1 = k).take cap

/-- Model of `cache.delete(key)`. -/
def lruDelete [DecidableEq K] (l : List (K × V)) (k : K) : List (K × V) :=
  l.eraseP fun p => p.1 = k

theorem lruGet_snd_length_le [DecidableEq K] (l : List (K × V)) (k : K) :
    (lruGet l k).2.length ≤ l.length := by
  unfold lruGet
  match hfind : lruLookup l k with
  | none => exact le_refl _
  | some v =>
    unfold lruLookup at hfind
    match hf : l.find? fun p => p.1 = k with
    | none => rw [hf] at hfind; cases hfind
    | some pr =>
      have hmem := List.mem_of_find?_eq_some hf
      have hp := List.find?_some hf
      simp only [List.length_cons]
      rw [List.length_eraseP_add_one hmem hp]

theorem lruSet_length_le [DecidableEq K] (cap : Nat) (l : List (K × V))
    (k : K) (v : V) : (lruSet cap l k v).length ≤ cap := by
  unfold lruSet
  simp

theorem lruDelete_length_le [DecidableEq K] (l : List (K × V)) (k : K) :
    (lruDelete l k).length ≤ l.length :=
  (List.eraseP_sublist l).length_le

/-- The five caches of `cacheService.ts` (`CACHE_CONFIGS`). -/
inductive CacheType where
  | gzip
  | fullList
  | colorName
  | rateLimit
  | closest
deriving DecidableEq, Repr

/-- The configured `max` of each cache (`CACHE_CONFIGS` in
`src/services/cacheService.ts`). -/
def cacheMax : CacheType → Nat
  | .gzip => 500
  | .fullList => 50
  | .colorName => 1000
  | .rateLimit => 10000
  | .closest => 5000

/-- The mutable state of the cache service: one LRU store per cache type
(the `caches` record of `cacheService.ts`). -/
structure CacheServiceState (V : Type u) where
  gzip : List (String × V)
  fullList : List (String × V)
  colorName : List (String × V)
  rateLimit : List (String × V)
  closest : List (String × V)

/-- Read the store of one cache type. -/
def cacheEntries (s : CacheServiceState V) : CacheType → List (String × V)
  | .gzip => s.gzip
  | .fullList => s.fullList
  | .colorName => s.colorName
  | .rateLimit => s.rateLimit
  | .closest => s.closest

/-- Replace the store of one cache type. -/
def withCacheEntries (s : CacheServiceState V) :
    CacheType → List (String × V) → CacheServiceState V
  | .gzip, l => { s with gzip := l }
  | .fullList, l => { s with fullList := l }
  | .colorName, l => { s with colorName := l }
  | .rateLimit, l => { s with rateLimit := l }
  | .closest, l => { s with closest := l }

/-- The operations `cacheService.ts` exports on the shared caches. -/
inductive CacheOp (V : Type u) where
  | getOp (t : CacheType) (k : String)
  | setOp (t : CacheType) (k : String) (v : V)
  | deleteOp (t : CacheType) (k : String)
  | clearOp (t : CacheType)
  | clearAllOp

/-- Embedded `getFromCache`: read a value without modifying which value is stored
(recency bookkeeping aside). -/
def getFromCache (s : CacheServiceState V) (t : CacheType) (k : String) :
    Option V :=
  (lruGet (cacheEntries s t) k).1

/-- Embedded `setInCache`. -/
def setInCache (s : CacheServiceState V) (t : CacheType) (k : String) (v : V) :
    CacheServiceState V :=
  withCacheEntries s t (lruSet (cacheMax t) (cacheEntries s t) k v)

/-- State transition of one cache-service call. -/
def applyCacheOp (s : CacheServiceState V) : CacheOp V → CacheServiceState V
  | .getOp t k => withCacheEntries s t (lruGet (cacheEntries s t) k).2
  | .setOp t k v => setInCache s t k v
  | .deleteOp t k => withCacheEntries s t (lruDelete (cacheEntries s t) k)
  | .clearOp t => withCacheEntries s t []
  | .clearAllOp => ⟨[], [], [], [], []⟩

/-- The caches start empty at module load. -/
def emptyCaches : CacheServiceState V := ⟨[], [], [], [], []⟩

/-- Run a sequence of cache-service calls from a starting state. -/
def runCacheOps (s : CacheServiceState V) (ops : List (CacheOp V)) :
    CacheServiceState V :=
  ops.foldl applyCacheOp s

theorem cacheEntries_withCacheEntries (s : CacheServiceState V)
    (t t2 : CacheType) (l : List (String × V)) :
    cacheEntries (withCacheEntries s t l) t2 =
      if t2 = t then l else cacheEntries s t2 := by
  cases t <;> cases t2 <;> simp [withCacheEntries, cacheEntries]

/-- Every cache stays within its configured capacity across any single
operation. -/
theorem applyCacheOp_bounded (s : CacheServiceState V) (op : CacheOp V)
    (hs : ∀ t, (cacheEntries s t).length ≤ cacheMax t) :
    ∀ t, (cacheEntries (applyCacheOp s op) t).length ≤ cacheMax t := by
  intro t
  match op with
  | .getOp t2 k =>
    rw [applyCacheOp, cacheEntries_withCacheEntries]
    by_cases ht : t = t2
    · rw [if_pos ht, ht]
      exact le_trans (lruGet_snd_length_le _ _) (hs t2)
    · rw [if_neg ht]
      exact hs t
  | .setOp t2 k v =>
    rw [applyCacheOp, setInCache, cacheEntries_withCacheEntries]
    by_cases ht : t = t2
    · rw [if_pos ht, ht]
      exact lruSet_length_le _ _ _ _
    · rw [if_neg ht]
      exact hs t
  | .deleteOp t2 k =>
    rw [applyCacheOp, cacheEntries_withCacheEntries]
    by_cases ht : t = t2
    · rw [if_pos ht, ht]
      exact le_trans (lruDelete_length_le _ _) (hs t2)
    · rw [if_neg ht]
      exact hs t
  | .clearOp t2 =>
    rw [applyCacheOp, cacheEntries_withCacheEntries]
    by_cases ht : t = t2
    · rw [if_pos ht]
      simp
    · rw [if_neg ht]
      exact hs t
  | .clearAllOp =>
    cases t <;> simp [applyCacheOp, cacheEntries]

theorem runCacheOps_bounded (ops : List (CacheOp V)) :
    ∀ (s : CacheServiceState V),
      (∀ t, (cacheEntries s t).length ≤ cacheMax t) →
      ∀ t, (cacheEntries (runCacheOps s ops) t).length ≤ cacheMax t := by
  induction ops with
  | nil => intro s hs; exact hs
  | cons op ops ih =>
    intro s hs
    exact ih (applyCacheOp s op) (applyCacheOp_bounded s op hs)

theorem lruSet_lookup_self [DecidableEq K] (cap : Nat) (l : List (K × V))
    (k : K) (v : V) (hcap : 0 < cap) :
    lruLookup (lruSet cap l k v) k = some v := by
  unfold lruSet lruLookup
  match cap with
  | 0 => omega
  | cap + 1 =>
    rw [List.take_succ_cons, List.find?_cons_of_pos _ (by simp)]
    rfl

theorem getFromCache_setInCache (s : CacheServiceState V) (t : CacheType)
    (k : String) (v : V) : getFromCache (setInCache s t k v) t k = some v := by
  unfold getFromCache setInCache
  rw [cacheEntries_withCacheEntries, if_pos rfl]
  unfold lruGet
  rw [lruSet_lookup_self _ _ _ _ (by cases t <;> decide)]

theorem lruSet_evicts_lru [DecidableEq K] (cap : Nat) (l : List (K × V))
    (k : K) (v : V) (hcap : 0 < cap) (hfull : l.length = cap)
    (hfresh : ∀ p ∈ l, p.1 ≠ k) :
    lruSet cap l k v = (k, v) :: l.dropLast := by
  unfold lruSet
  have herase : (l.eraseP fun p => p.1 = k) = l := by
    apply List.eraseP_of_forall_not
    intro p hp
    simp [hfresh p hp]
  rw [herase]
  match cap, hcap, hfull with
  | cap + 1, _, hfull =>
    rw [List.take_succ_cons, List.dropLast_eq_take]
    rw [hfull]
    simp

/-- Modelled from the spec (§4.4): the `ClosestMatchCache` step of one
lookup. Non-unique mode serves hits from the cache and stores fresh
results under the (list, hex) key; unique mode always searches with the
batch availability filter and leaves the cache untouched, because
unique-mode results are batch-order-dependent. -/
def closestLookup (dist : α → α → Nat) (t : VPTree α)
    (cache : List ((String × String) × Cand)) (listId hex : String) (q : α)
    (uniqueMode : Bool) (avail : Nat → Bool) :
    Option Cand × List ((String × String) × Cand) :=
  if uniqueMode then (searchVP dist q avail t none, cache)
  else
    match lruGet cache (listId, hex) with
    | (some v, cache2) => (some v, cache2)
    | (none, cache2) =>
      match searchVP dist q (fun _ => true) t none with
      | some v => (some v, lruSet (cacheMax .closest) cache2 (listId, hex) v)
      | none => (none, cache2)

/-- A hex digit as accepted by the route's case-insensitive character
class 0-9/a-f. -/
def isHexDigitChar (c : Char) : Bool :=
  c.isDigit || ('a' ≤ c && c ≤ 'f') || ('A' ≤ c && c ≤ 'F')

/-- Whether a token matches the route's hex pattern: exactly 3 or exactly
6 hex digits (embedded from the validation regex of the `/v1/` handler). -/
def isValidHexToken (s : String) : Bool :=
  (s.length = 3 || s.length = 6) && s.toList.all isHexDigitChar

/-- One matched color as produced by `findColors.getNamesForValues`: a name
plus an optional error message. -/
structure MatchItem where
  name : String
  error : Option String
deriving DecidableEq, Repr

/-- The `/v1/` route's response shapes, embedded from the Hono server file:
400 for an unknown list, the full-list response when `values` is absent,
400 when the batch exceeds the configured maximum, 400 naming the invalid
hex tokens, 409 carrying the first exhausted item, and the 200 palette. -/
inductive V1Response where
  | badList
  | allColors
  | badMaxColors
  | badHex (invalid : List String)
  | conflict (item : MatchItem)
  | okPalette (title : String) (items : List MatchItem)
deriving DecidableEq, Repr

/-- Split a character sequence on commas, JS `split(',')` semantics:
adjacent or trailing commas yield empty tokens. -/
def splitOnComma : List Char → List (List Char)
  | [] => [[]]
  | c :: rest =>
    if c = ',' then [] :: splitOnComma rest
    else
      match splitOnComma rest with
      | t :: ts => (c :: t) :: ts
      | [] => [[c]]

/-- The comma-separated tokens of a `values` parameter after the handler's
lowercasing (`values.toLowerCase().split(',')`), before empty tokens are
dropped. -/
def valuesTokens (v : String) : List String :=
  (splitOnComma (v.toList.map Char.toLower)).map fun cs => String.mk cs

/-- The `values`-present half of the `/v1/` handler: batch-size check,
hex validation naming the invalid tokens, then matching, exhaustion
translation and palette naming. -/
def handleV1Values (maxColors : Nat)
    (matcher : List String → Bool → String → List MatchItem)
    (paletteNamer : List String → String)
    (v : String) (list : String) (nodup : Bool) : V1Response :=
  let hexColors := (valuesTokens v).filter fun s => s ≠ ""
  if maxColors < hexColors.length then .badMaxColors
  else
    let invalidColors := hexColors.filter fun s => ¬ isValidHexToken s
    if invalidColors ≠ [] then .badHex invalidColors
    else
      let colorResults := matcher hexColors nodup list
      match colorResults.find? fun item => item.error.isSome with
      | some ex => .conflict ex
      | none =>
        .okPalette
          (if hexColors.length = 1 then
            ((colorResults.head?).map fun item => item.name).getD ""
          else paletteNamer (colorResults.map fun item => item.name))
          colorResults

/-- Embedded from the `/v1/` handler of the Hono server file: validate the
list name, return all colors when `values` is absent, otherwise process the
values. `matcher` stands for `findColors.getNamesForValues` and
`paletteNamer` for `getPaletteTitle`, both external to this file's claims. -/
def handleV1 (availableLists : List String) (maxColors : Nat)
    (matcher : List String → Bool → String → List MatchItem)
    (paletteNamer : List String → String)
    (values : Option String) (listq : Option String) (nodup : Bool) :
    V1Response :=
  let list := listq.getD "default"
  if availableLists.contains list = false then .badList
  else
    match values with
    | none => .allColors
    | some v => handleV1Values maxColors matcher paletteNamer v list nodup

/-- Lifecycle phase of one list's VP-tree in the process-wide registry
(spec §9): absent, build in progress, or completed. -/
inductive BuildPhase where
  | missing
  | building
  | ready
deriving DecidableEq, Repr

/-- Modelled from the spec (§5, §9): the guarded per-list tree registry,
instrumented with the number of builds ever started per list. The lazy
single-flight engine source is not part of this snapshot. -/
structure TreeRegistry where
  phase : String → BuildPhase
  buildsStarted : String → Nat

/-- Events of the registry: an accessor requests a list's tree (starting a
build only when none exists or is in flight), or an in-flight build
completes. Interleavings of concurrent requests are arbitrary traces. -/
inductive RegistryEvent where
  | request (listId : String)
  | buildDone (listId : String)

/-- Registry at process start: empty, no builds performed. -/
def registryInit : TreeRegistry :=
  ⟨fun _ => .missing, fun _ => 0⟩

/-- Modelled from the spec: a request for a missing list starts the one
build and marks it in flight; requests during the build (or after it) await
or reuse the registry entry, starting nothing. -/
def registryStep (s : TreeRegistry) : RegistryEvent → TreeRegistry
  | .request l =>
    match s.phase l with
    | .missing =>
      { phase := fun x => if x = l then .building else s.phase x,
        buildsStarted := fun x =>
          if x = l then s.buildsStarted x + 1 else s.buildsStarted x }
    | .building => s
    | .ready => s
  | .buildDone l =>
    match s.phase l with
    | .building => { s with phase := fun x => if x = l then .ready else s.phase x }
    | .missing => s
    | .ready => s

/-- Run an arbitrary interleaving of registry events from process start. -/
def registryRun (evs : List RegistryEvent) : TreeRegistry :=
  evs.foldl registryStep registryInit

/-- The single-flight invariant: a list never seen has zero builds; once
seen, exactly one build was started. -/
def RegistryInv (s : TreeRegistry) : Prop :=
  ∀ l, (s.phase l = .missing ∧ s.buildsStarted l = 0) ∨
    (s.phase l ≠ .missing ∧ s.buildsStarted l = 1)

theorem registryStep_inv (s : TreeRegistry) (e : RegistryEvent)
    (hs : RegistryInv s) : RegistryInv (registryStep s e) := by
  intro l
  match e with
  | .request l2 =>
    rw [registryStep]
    match hph : s.phase l2 with
    | .missing =>
      by_cases hl : l = l2
      · subst hl
        refine Or.inr ⟨by simp, ?_⟩
        simp only [if_pos rfl]
        rcases hs l with ⟨_, h0⟩ | ⟨hne, _⟩
        · simp [h0]
        · exact absurd hph hne
      · rcases hs l with ⟨hm, h0⟩ | ⟨hne, h1⟩
        · exact Or.inl ⟨by simp [hl, hm], by simp [hl, h0]⟩
        · exact Or.inr ⟨by simp [hl, hne], by simp [hl, h1]⟩
    | .building => exact hs l
    | .ready => exact hs l
  | .buildDone l2 =>
    rw [registryStep]
    match hph : s.phase l2 with
    | .building =>
      by_cases hl : l = l2
      · subst hl
        rcases hs l with ⟨hm, _⟩ | ⟨_, h1⟩
        · rw [hm] at hph; cases hph
        · exact Or.inr ⟨by simp, h1⟩
      · rcases hs l with ⟨hm, h0⟩ | ⟨hne, h1⟩
        · exact Or.inl ⟨by simp [hl, hm], h0⟩
        · exact Or.inr ⟨by simp [hl, hne], h1⟩
    | .missing => exact hs l
    | .ready => exact hs l

theorem registryRun_inv (evs : List RegistryEvent) :
    RegistryInv (evs.foldl registryStep registryInit) := by
  have hgen : ∀ (s : TreeRegistry), RegistryInv s →
      RegistryInv (evs.foldl registryStep s) := by
    induction evs with
    | nil => intro s hs; exact hs
    | cons e evs ih =>
      intro s hs
      exact ih (registryStep s e) (registryStep_inv s e hs)
  exact hgen registryInit (fun l => Or.inl ⟨rfl, rfl⟩)

theorem registryStep_not_missing (s : TreeRegistry) (e : RegistryEvent)
    (l : String) (h : s.phase l ≠ .missing) :
    (registryStep s e).phase l ≠ .missing := by
  match e with
  | .request l2 =>
    rw [registryStep]
    match hph : s.phase l2 with
    | .missing =>
      by_cases hl : l = l2
      · subst hl; exact absurd hph h
      · simpa [hl] using h
    | .building => exact h
    | .ready => exact h
  | .buildDone l2 =>
    rw [registryStep]
    match hph : s.phase l2 with
    | .building =>
      by_cases hl : l = l2
      · subst hl; simp
      · simpa [hl] using h
    | .missing => exact h
    | .ready => exact h

theorem registryStep_request_not_missing (s : TreeRegistry) (l : String) :
    (registryStep s (.request l)).phase l ≠ .missing := by
  rw [registryStep]
  match hph : s.phase l with
  | .missing => simp
  | .building => simp [hph]
  | .ready => simp [hph]

theorem registryFold_not_missing (evs : List RegistryEvent) (l : String) :
    ∀ (s : TreeRegistry), s.phase l ≠ .missing →
      (evs.foldl registryStep s).phase l ≠ .missing := by
  induction evs with
  | nil => intro s hs; exact hs
  | cons e evs ih =>
    intro s hs
    exact ih (registryStep s e) (registryStep_not_missing s e l hs)

theorem registryRun_requested_not_missing (evs : List RegistryEvent)
    (l : String) (hmem : RegistryEvent.request l ∈ evs) :
    ∀ (s : TreeRegistry), (evs.foldl registryStep s).phase l ≠ .missing := by
  induction evs with
  | nil => cases hmem
  | cons e evs ih =>
    intro s
    by_cases he : e = RegistryEvent.request l
    · subst he
      simp only [List.foldl_cons]
      exact registryFold_not_missing evs l _ (registryStep_request_not_missing s l)
    · have hmem2 : RegistryEvent.request l ∈ evs := by
        rcases List.mem_cons.mp hmem with heq | h2
        · exact absurd heq.symm he
        · exact h2
      simp only [List.foldl_cons]
      exact ih hmem2 (registryStep s e)

/-- A geo-location record attached to a request (an object, hence never
falsy when present). -/
structure SocketLocation where
  country : String
deriving DecidableEq, Repr

/-- One color of a socket color event: name, hex, and the originally
requested hex when there was one. -/
structure EventColor where
  name : String
  hex : String
  requestedHex : Option String
deriving DecidableEq, Repr

/-- Request metadata carried by a socket color event. -/
structure SocketRequestInfo where
  url : String
  method : String
  clientLocation : Option SocketLocation
deriving DecidableEq, Repr

/-- The event handed to `broadcastColorEvent`. -/
structure SocketColorEvent where
  paletteTitle : String
  colors : List EventColor
  list : String
  request : Option SocketRequestInfo
deriving DecidableEq, Repr

/-- A color as placed on the wire: `requestedHex` is always a string,
defaulting to the empty string. -/
structure BroadcastColor where
  name : String
  hex : String
  requestedHex : String
deriving DecidableEq, Repr

/-- The payload emitted on the `colors` channel. -/
structure BroadcastPayload where
  paletteTitle : String
  colors : List BroadcastColor
  list : String
  request : Option SocketRequestInfo
  clientLocation : Option SocketLocation
  timestamp : String
deriving DecidableEq, Repr

/-- The field projection applied to each emitted color. -/
def projectEventColor (c : EventColor) : BroadcastColor :=
  { name := c.name, hex := c.hex, requestedHex := c.requestedHex.getD "" }

/-- Embedded from `broadcastColorEvent` in `src/services/socketService.ts`:
nothing is emitted when `io` is null or the service is disabled; otherwise
the payload carries at most the first 50 colors, each projected to
name/hex/requestedHex. `ioInit` stands for `io` being non-null,
`enabledFlag` for the module's `enabled` flag and `now` for
`new Date().toISOString()`. -/
def broadcastColorEvent (ioInit enabledFlag : Bool) (now : String)
    (event : SocketColorEvent) : Option BroadcastPayload :=
  if ioInit = false ∨ enabledFlag = false then none
  else
    some
      { paletteTitle := event.paletteTitle
        colors := (event.colors.take 50).map projectEventColor
        list := event.list
        request := event.request
        clientLocation := (event.request.map fun r => r.clientLocation).getD none
        timestamp := now }

/-- A concrete executable metric on naturals for the witnesses: the
absolute difference, which is symmetric and satisfies the triangle
inequality. -/
def natDist (a b : Nat) : Nat := max a b - min a b

theorem natDist_symm : ∀ a b, natDist a b = natDist b a := by
  intro a b
  unfold natDist
  omega

theorem natDist_triangle : ∀ a b c, natDist a c ≤ natDist a b + natDist b c := by
  intro a b c
  unfold natDist
  omega

/-- C1: for every color list with at least one entry and every single
query, `matchOne` returns an entry of that list whose metric distance to
the query is the global minimum over all entries — identical to the
brute-force O(N) scan — together with that distance. -/
theorem matchOne_is_global_min {α : Type} (dist : α → α → Nat)
    (entries : List α) (q : α)
    (hsymm : ∀ a b, dist a b = dist b a)
    (htri : ∀ a b c, dist a c ≤ dist a b + dist b c)
    (hne : entries ≠ []) :
    ∃ c : Cand, matchOne dist entries q = Except.ok c ∧
      bruteForceScan dist entries q = some c ∧
      (∃ h : c.idx < entries.length, c.d = dist q (entries.get ⟨c.idx, h⟩)) ∧
      (∀ i (h : i < entries.length), c.d ≤ dist q (entries.get ⟨i, h⟩)) := by
  have heq := searchVP_build_eq_scanBest dist q (fun _ => true) hsymm htri
    entries.enum
  have h0 : 0 < entries.length := List.length_pos.mpr hne
  have hx0 : (0, entries.get ⟨0, h0⟩) ∈ entries.enum := mem_enum_of_lt entries 0 h0
  have hbrute : ∃ c, bruteForceScan dist entries q = some c := by
    match hb : bruteForceScan dist entries q with
    | some c => exact ⟨c, rfl⟩
    | none =>
      unfold bruteForceScan at hb
      have := (scanBest_none dist q _ entries.enum none hb).2 _ hx0
      cases this
  obtain ⟨c, hc⟩ := hbrute
  have hcscan : scanBest dist q (fun _ => true) entries.enum none = some c := hc
  refine ⟨c, ?_, hc, ?_, ?_⟩
  · unfold matchOne
    rw [heq, hcscan]
  · rcases scanBest_mem dist q _ entries.enum none c hcscan with h0' | ⟨x, hx, _, hcx⟩
    · cases h0'
    · obtain ⟨hlt, hx2⟩ := of_mem_enum hx
      subst hcx
      exact ⟨hlt, congrArg (dist q) hx2⟩
  · intro i h
    have := scanBest_lower_bound dist q _ entries.enum none c hcscan
      (i, entries.get ⟨i, h⟩) (mem_enum_of_lt entries i h) rfl
    exact candLe_d_le this

/-- C1 witness: the list `[5, 1, 9]` and query `3` under the absolute
difference metric. -/
theorem matchOne_is_global_min_witness :
    (([5, 1, 9] : List Nat) ≠ []) ∧
    (∃ c : Cand, matchOne natDist [5, 1, 9] 3 = Except.ok c ∧
      bruteForceScan natDist [5, 1, 9] 3 = some c ∧
      (∃ h : c.idx < ([5, 1, 9] : List Nat).length,
        c.d = natDist 3 (([5, 1, 9] : List Nat).get ⟨c.idx, h⟩)) ∧
      (∀ i (h : i < ([5, 1, 9] : List Nat).length),
        c.d ≤ natDist 3 (([5, 1, 9] : List Nat).get ⟨i, h⟩))) :=
  ⟨by decide,
    matchOne_is_global_min natDist [5, 1, 9] 3 natDist_symm natDist_triangle
      (by decide)⟩

/-- C2: unique-mode `matchBatch` over N entries and M queries yields
exactly min(M, N) successes with pairwise-distinct assigned indices, and
when M > N exactly N queries succeed while every remaining query reports
`Exhaustion`. -/
theorem matchBatch_unique_min_successes {α : Type} (dist : α → α → Nat)
    (entries : List α) (qs : List α) :
    (matchBatch dist entries qs true).countP isSuccess =
        min qs.length entries.length ∧
    (successIndices (matchBatch dist entries qs true)).Nodup ∧
    (entries.length < qs.length →
      (matchBatch dist entries qs true).countP isSuccess = entries.length ∧
      ∀ k, entries.length ≤ k → k < qs.length →
        (matchBatch dist entries qs true)[k]? =
          some (.failure .Exhaustion)) := by
  obtain ⟨hlen, hcnt, hnd, hmem, hsucc, hfail⟩ :=
    matchBatch_unique_spec dist entries qs
  refine ⟨hcnt, hnd, fun hlt => ⟨?_, hfail⟩⟩
  rw [hcnt]
  omega

/-- C2 witness: two entries, three queries, unique mode — the inner
`M > N` hypothesis discharged at this input. -/
theorem matchBatch_unique_min_successes_witness :
    (matchBatch natDist [0, 10] [1, 2, 11] true).countP isSuccess =
        min ([1, 2, 11] : List Nat).length ([0, 10] : List Nat).length ∧
    (successIndices (matchBatch natDist [0, 10] [1, 2, 11] true)).Nodup ∧
    ((matchBatch natDist [0, 10] [1, 2, 11] true).countP isSuccess =
        ([0, 10] : List Nat).length ∧
      ∀ k, ([0, 10] : List Nat).length ≤ k → k < ([1, 2, 11] : List Nat).length →
        (matchBatch natDist [0, 10] [1, 2, 11] true)[k]? =
          some (.failure .Exhaustion)) :=
  ⟨(matchBatch_unique_min_successes natDist [0, 10] [1, 2, 11]).1,
   (matchBatch_unique_min_successes natDist [0, 10] [1, 2, 11]).2.1,
   (matchBatch_unique_min_successes natDist [0, 10] [1, 2, 11]).2.2 (by decide)⟩

/-- C3: when a unique-mode batch ends in partial exhaustion, the returned
value still has one entry per query: a successful match for every
pre-exhaustion query and an `Exhaustion` marker for each remaining one —
the partial result set is carried, never discarded. -/
theorem matchBatch_exhaustion_keeps_results {α : Type} (dist : α → α → Nat)
    (entries : List α) (qs : List α)
    (hexh : entries.length < qs.length) :
    (matchBatch dist entries qs true).length = qs.length ∧
    (∀ k, k < entries.length →
      ∃ c, (matchBatch dist entries qs true)[k]? = some (.success c)) ∧
    (∀ k, entries.length ≤ k → k < qs.length →
      (matchBatch dist entries qs true)[k]? = some (.failure .Exhaustion)) := by
  obtain ⟨hlen, hcnt, hnd, hmem, hsucc, hfail⟩ :=
    matchBatch_unique_spec dist entries qs
  refine ⟨hlen, fun k hk => hsucc k (by omega), hfail⟩

/-- C3 witness: two entries, three queries — partial exhaustion occurs and
the full per-query result list is returned. -/
theorem matchBatch_exhaustion_keeps_results_witness :
    (([0, 10] : List Nat).length < ([1, 2, 11] : List Nat).length) ∧
    ((matchBatch natDist [0, 10] [1, 2, 11] true).length =
        ([1, 2, 11] : List Nat).length ∧
      (∀ k, k < ([0, 10] : List Nat).length →
        ∃ c, (matchBatch natDist [0, 10] [1, 2, 11] true)[k]? =
          some (.success c)) ∧
      (∀ k, ([0, 10] : List Nat).length ≤ k →
        k < ([1, 2, 11] : List Nat).length →
        (matchBatch natDist [0, 10] [1, 2, 11] true)[k]? =
          some (.failure .Exhaustion))) :=
  ⟨by decide,
    matchBatch_exhaustion_keeps_results natDist [0, 10] [1, 2, 11] (by decide)⟩

/-- C4: whenever two candidates lie at exactly the winning distance, the
result resolves to the lower original list index: the returned index is
minimal among all entries at the returned distance. Determinism across
repeated runs is inherent, `matchOne` being a pure function. -/
theorem matchOne_tie_breaks_to_lower_index {α : Type} (dist : α → α → Nat)
    (entries : List α) (q : α) (c : Cand)
    (hsymm : ∀ a b, dist a b = dist b a)
    (htri : ∀ a b c, dist a c ≤ dist a b + dist b c)
    (hres : matchOne dist entries q = Except.ok c) :
    ∀ i (h : i < entries.length),
      dist q (entries.get ⟨i, h⟩) = c.d → c.idx ≤ i := by
  intro i h hd
  have heq := searchVP_build_eq_scanBest dist q (fun _ => true) hsymm htri
    entries.enum
  unfold matchOne at hres
  rw [heq] at hres
  match hscan : scanBest dist q (fun _ => true) entries.enum none with
  | none => rw [hscan] at hres; cases hres
  | some c2 =>
    rw [hscan] at hres
    have hc2 : c2 = c := by
      cases hres
      rfl
    subst hc2
    have hle := scanBest_lower_bound dist q _ entries.enum none c2 hscan
      (i, entries.get ⟨i, h⟩) (mem_enum_of_lt entries i h) rfl
    unfold candLe at hle
    simp only [] at hle
    omega

/-- C4 witness: `[9, 3, 3]` queried at `3` — indices 1 and 2 are
equidistant (distance 0) and the result picks index 1. -/
theorem matchOne_tie_breaks_to_lower_index_witness :
    (matchOne natDist [9, 3, 3] 3 = Except.ok ⟨1, 0⟩) ∧
    (∀ i (h : i < ([9, 3, 3] : List Nat).length),
      natDist 3 (([9, 3, 3] : List Nat).get ⟨i, h⟩) = (⟨1, 0⟩ : Cand).d →
      (⟨1, 0⟩ : Cand).idx ≤ i) :=
  ⟨rfl,
    matchOne_tie_breaks_to_lower_index natDist [9, 3, 3] 3 ⟨1, 0⟩
      natDist_symm natDist_triangle rfl⟩

/-- C5: a unique-mode request is never served from the `ClosestMatchCache`
and never stored in it: the cache state is returned untouched and the
result is the fresh availability-filtered search, identical whatever the
cache holds. -/
theorem unique_mode_bypasses_closest_cache {α : Type} (dist : α → α → Nat)
    (t : VPTree α) (cache : List ((String × String) × Cand))
    (listId hex : String) (q : α) (avail : Nat → Bool) :
    (closestLookup dist t cache listId hex q true avail).2 = cache ∧
    (closestLookup dist t cache listId hex q true avail).1 =
      searchVP dist q avail t none ∧
    ∀ cache2 : List ((String × String) × Cand),
      (closestLookup dist t cache2 listId hex q true avail).1 =
      (closestLookup dist t cache listId hex q true avail).1 :=
  ⟨rfl, rfl, fun _ => rfl⟩

/-- C6: after any sequence of cache-service operations from the initial
empty state, every cache holds at most its configured maximum (gzip 500,
fullList 50, colorName 1000, rateLimit 10000, closest 5000), and insertion
into a full cache under a fresh key evicts the least-recently-used entry —
eviction is purely by capacity and recency, with no TTL anywhere in the
model. -/
theorem caches_independently_bounded {V : Type} :
    (∀ (ops : List (CacheOp V)) (t : CacheType),
      (cacheEntries (runCacheOps emptyCaches ops) t).length ≤ cacheMax t) ∧
    (cacheMax .gzip = 500 ∧ cacheMax .fullList = 50 ∧
      cacheMax .colorName = 1000 ∧ cacheMax .rateLimit = 10000 ∧
      cacheMax .closest = 5000) ∧
    (∀ (t : CacheType) (l : List (String × V)) (k : String) (v : V),
      l.length = cacheMax t → (∀ p ∈ l, p.1 ≠ k) →
      lruSet (cacheMax t) l k v = (k, v) :: l.dropLast) := by
  refine ⟨?_, ⟨rfl, rfl, rfl, rfl, rfl⟩, ?_⟩
  · intro ops t
    refine runCacheOps_bounded ops emptyCaches ?_ t
    intro t2
    cases t2 <;> simp [emptyCaches, cacheEntries]
  · intro t l k v hfull hfresh
    exact lruSet_evicts_lru _ l k v (by cases t <;> decide) hfull hfresh

/-- C6 witness: a full 50-entry `fullList` cache evicts its oldest entry on
a fresh insert, and a one-set history stays within the gzip bound. -/
theorem caches_independently_bounded_witness :
    (List.replicate 50 (("a", (1 : Nat)))).length = cacheMax CacheType.fullList ∧
    lruSet (cacheMax CacheType.fullList) (List.replicate 50 ("a", (1 : Nat)))
        "b" 2 = ("b", 2) :: (List.replicate 50 ("a", (1 : Nat))).dropLast ∧
    (cacheEntries (runCacheOps (emptyCaches : CacheServiceState Nat)
        [CacheOp.setOp CacheType.gzip "k" 1]) CacheType.gzip).length ≤
      cacheMax CacheType.gzip :=
  ⟨by simp [cacheMax],
   (@caches_independently_bounded Nat).2.2 CacheType.fullList
     (List.replicate 50 ("a", 1)) "b" 2 (by simp [cacheMax])
     (fun p hp => by rw [List.eq_of_mem_replicate hp]; decide),
   (@caches_independently_bounded Nat).1
     [CacheOp.setOp CacheType.gzip "k" 1] CacheType.gzip⟩

/-- C7: `setInCache(t, k, v)` immediately followed by `getFromCache(t, k)`
returns exactly the stored value, unchanged, for every cache type, key,
value and prior state. -/
theorem set_then_get_roundtrip {V : Type} (s : CacheServiceState V)
    (t : CacheType) (k : String) (v : V) :
    getFromCache (setInCache s t k v) t k = some v :=
  getFromCache_setInCache s t k v

/-- C8 counterexample: `values = "fff,"`. Its comma-split token list
contains the empty token, which is not a 3- or 6-digit hex color, yet the
handler performs matching and answers with a palette instead of a 400
naming invalid tokens. -/
theorem invalid_token_not_rejected :
    ("" ∈ valuesTokens "fff,") ∧ isValidHexToken "" = false ∧
    handleV1 ["default"] 170
        (fun hexes _ _ => hexes.map fun h => ⟨h, none⟩)
        (fun _ => "t") (some "fff,") none false =
      .okPalette "fff" [⟨"fff", none⟩] :=
  ⟨by decide, rfl, by decide⟩

/-- C8 (amended): for a request with a recognized list whose nonempty
tokens are within the batch limit, any invalid nonempty token makes the
handler answer 400 naming exactly the invalid tokens, and no matching is
performed — the response is the same whatever the matcher or palette
namer. -/
theorem invalid_hex_rejected_with_400 (availableLists : List String)
    (maxColors : Nat) (matcher : List String → Bool → String → List MatchItem)
    (paletteNamer : List String → String)
    (v : String) (listq : Option String) (nodup : Bool)
    (hlist : availableLists.contains (listq.getD "default") = true)
    (hsize : ((valuesTokens v).filter fun s => s ≠ "").length ≤ maxColors)
    (hinv : (((valuesTokens v).filter fun s => s ≠ "").filter
        fun s => ¬ isValidHexToken s) ≠ []) :
    handleV1 availableLists maxColors matcher paletteNamer (some v) listq
        nodup =
      .badHex (((valuesTokens v).filter fun s => s ≠ "").filter
        fun s => ¬ isValidHexToken s) := by
  have hsome : handleV1 availableLists maxColors matcher paletteNamer
      (some v) listq nodup =
      handleV1Values maxColors matcher paletteNamer v (listq.getD "default")
        nodup := by
    unfold handleV1
    rw [if_neg (by rw [hlist]; simp)]
  rw [hsome]
  simp only [handleV1Values]
  rw [if_neg (Nat.not_lt.mpr hsize), if_pos hinv]

/-- C8 witness for the amended claim: `values = "zzz,fff"` is rejected with
the invalid token named, independent of the matcher. -/
theorem invalid_hex_rejected_with_400_witness :
    (["default"].contains ((none : Option String).getD "default") = true) ∧
    ((valuesTokens "zzz,fff").filter fun s => s ≠ "").length ≤ 170 ∧
    ((((valuesTokens "zzz,fff").filter fun s => s ≠ "").filter
        fun s => ¬ isValidHexToken s) ≠ []) ∧
    handleV1 ["default"] 170
        (fun hexes _ _ => hexes.map fun h => ⟨h, none⟩)
        (fun _ => "t") (some "zzz,fff") none false =
      .badHex (((valuesTokens "zzz,fff").filter fun s => s ≠ "").filter
        fun s => ¬ isValidHexToken s) :=
  ⟨by decide, by decide, by decide,
    invalid_hex_rejected_with_400 ["default"] 170
      (fun hexes _ _ => hexes.map fun h => ⟨h, none⟩) (fun _ => "t")
      "zzz,fff" none false (by decide) (by decide) (by decide)⟩

/-- C9: across every interleaving of concurrent accesses, at most one
VP-tree build is ever started per list, and a list that was requested at
least once has exactly one build over the process lifetime — concurrent
first-accessors share the single in-flight build and duplicate trees are
never constructed. -/
theorem single_flight_build_per_list (evs : List RegistryEvent) (l : String) :
    (registryRun evs).buildsStarted l ≤ 1 ∧
    (RegistryEvent.request l ∈ evs → (registryRun evs).buildsStarted l = 1) := by
  have hinv := registryRun_inv evs
  constructor
  · rcases hinv l with ⟨_, h0⟩ | ⟨_, h1⟩
    · show (evs.foldl registryStep registryInit).buildsStarted l ≤ 1
      omega
    · show (evs.foldl registryStep registryInit).buildsStarted l ≤ 1
      omega
  · intro hmem
    have hnm := registryRun_requested_not_missing evs l hmem registryInit
    rcases hinv l with ⟨hm, _⟩ | ⟨_, h1⟩
    · exact absurd hm hnm
    · exact h1

/-- C9 witness: two concurrent first requests, a completed build, then a
later request — one build in total. -/
theorem single_flight_build_per_list_witness :
    (registryRun [RegistryEvent.request "default",
        RegistryEvent.request "default", RegistryEvent.buildDone "default",
        RegistryEvent.request "default"]).buildsStarted "default" ≤ 1 ∧
    (registryRun [RegistryEvent.request "default",
        RegistryEvent.request "default", RegistryEvent.buildDone "default",
        RegistryEvent.request "default"]).buildsStarted "default" = 1 :=
  ⟨(single_flight_build_per_list _ "default").1,
   (single_flight_build_per_list _ "default").2
     (List.mem_cons_self _ _)⟩

/-- C10: with the service initialized and enabled, the broadcast payload
carries exactly the first min(50, length) colors of the event, in order,
each projected to name/hex/requestedHex with the empty-string default;
when uninitialized or disabled, nothing is emitted. -/
theorem broadcast_truncates_and_projects (ioInit enabledFlag : Bool)
    (now : String) (event : SocketColorEvent) :
    (broadcastColorEvent ioInit enabledFlag now event = none ↔
      (ioInit = false ∨ enabledFlag = false)) ∧
    ∀ p, broadcastColorEvent ioInit enabledFlag now event = some p →
      p.colors.length = min 50 event.colors.length ∧
      ∀ i (hi : i < p.colors.length) (hi2 : i < event.colors.length),
        p.colors.get ⟨i, hi⟩ = projectEventColor (event.colors.get ⟨i, hi2⟩) := by
  constructor
  · unfold broadcastColorEvent
    by_cases h : ioInit = false ∨ enabledFlag = false
    · rw [if_pos h]
      simp [h]
    · rw [if_neg h]
      simp [h]
  · intro p hp
    unfold broadcastColorEvent at hp
    by_cases h : ioInit = false ∨ enabledFlag = false
    · rw [if_pos h] at hp
      cases hp
    · rw [if_neg h] at hp
      obtain rfl := (Option.some.inj hp).symm
      constructor
      · simp
      · intro i hi hi2
        rw [List.get_eq_getElem, List.get_eq_getElem]
        simp only [List.getElem_map, List.getElem_take]

/-- C10 witness: an enabled, initialized service broadcasting a two-color
event; the second color's `requestedHex` is present, the first defaults. -/
theorem broadcast_truncates_and_projects_witness :
    (broadcastColorEvent true true "ts"
        ⟨"t", [⟨"black", "#000", none⟩, ⟨"white", "#fff", some "#eee"⟩],
          "default", none⟩ =
      some ⟨"t", [⟨"black", "#000", ""⟩, ⟨"white", "#fff", "#eee"⟩],
        "default", none, none, "ts"⟩) ∧
    ([⟨"black", "#000", ""⟩, ⟨"white", "#fff", "#eee"⟩] :
        List BroadcastColor).length =
      min 50 ([⟨"black", "#000", none⟩, ⟨"white", "#fff", some "#eee"⟩] :
        List EventColor).length ∧
    (broadcastColorEvent false true "ts"
        ⟨"t", [⟨"black", "#000", none⟩, ⟨"white", "#fff", some "#eee"⟩],
          "default", none⟩ = none) :=
  ⟨rfl,
   ((broadcast_truncates_and_projects true true "ts"
      ⟨"t", [⟨"black", "#000", none⟩, ⟨"white", "#fff", some "#eee"⟩],
        "default", none⟩).2
      ⟨"t", [⟨"black", "#000", ""⟩, ⟨"white", "#fff", "#eee"⟩],
        "default", none, none, "ts"⟩ rfl).1,
   (broadcast_truncates_and_projects false true "ts"
      ⟨"t", [⟨"black", "#000", none⟩, ⟨"white", "#fff", some "#eee"⟩],
        "default", none⟩).1.mpr (Or.inl rfl)⟩
